import Mathlib

/-!
Shallow embedding of the dependency-resolution core of the ci-tools build
pipeline (pkg/api/graph.go): the step-link model and its satisfiability
relation, full graph construction, and targeted partial graph construction.
Go strings are modelled as lists of characters, heap-allocated step nodes
as indices into the node array built by BuildGraph, and the children
pointer structure as a table of child-index lists.
-/

/-- Go string values, modelled as lists of characters. -/
abbrev GoString := List Char

/-- StepLink variants (pkg/api/graph.go): the closed set of concrete link
types behind the StepLink interface. -/
inductive StepLink where
  | internalImageStream (name : GoString)
  | internalImageStreamTag (name tag : GoString)
  | allSteps
  | externalImage (ns name tag : GoString)
  | imagesReady
  | rpmRepo
deriving DecidableEq

/-- SatisfiedBy dispatches on the dynamic types of both links, exactly as
the per-variant SatisfiedBy methods of the source do. -/
def SatisfiedBy : StepLink → StepLink → Bool
  | .internalImageStream n, .internalImageStream n2 => n == n2
  | .internalImageStream _, _ => false
  | .internalImageStreamTag n t, .internalImageStreamTag n2 t2 => n == n2 && t == t2
  | .internalImageStreamTag n _, .internalImageStream n2 => n == n2
  | .internalImageStreamTag _ _, _ => false
  | .allSteps, _ => true
  | .externalImage ns n t, .externalImage ns2 n2 t2 => n == n2 && ns == ns2 && t == t2
  | .externalImage _ _ _, _ => false
  | .imagesReady, .imagesReady => true
  | .imagesReady, _ => false
  | .rpmRepo, .rpmRepo => true
  | .rpmRepo, _ => false

/-- Modelled from the spec: the process-wide naming constant for the base
stream is declared in a source file not included here; the spec fixes a
distinguished base stream name that backs the default release. -/
def StableImageStream : GoString := "stable".toList

/-- Modelled from the spec: the distinguished default release name, also
declared outside the included source files. -/
def LatestReleaseName : GoString := "latest".toList

/-- ReleaseStreamFor (pkg/api/graph.go): the default release name maps to
the base stream, every other name to base-name concatenation. -/
def ReleaseStreamFor (name : GoString) : GoString :=
  if name = LatestReleaseName then StableImageStream
  else StableImageStream ++ "-".toList ++ name

/-- ReleaseNameFrom (pkg/api/graph.go); strings.TrimPrefix is inlined as
the conditional drop of the leading base-stream segment. -/
def ReleaseNameFrom (stream : GoString) : GoString :=
  if stream = StableImageStream then LatestReleaseName
  else if (StableImageStream ++ "-".toList).isPrefixOf stream
    then stream.drop (StableImageStream ++ "-".toList).length
    else stream

/-- Step: graph construction only reads Name, Requires and Creates; the
execution-related operations of the interface are never called by the
graph core and are omitted. -/
structure Step where
  name : GoString
  requires : List StepLink
  creates : List StepLink
deriving DecidableEq

instance : Inhabited Step := ⟨⟨[], [], []⟩⟩

/-- HasAnyLinks (pkg/api/graph.go): some required link is satisfied by
some candidate link. -/
def HasAnyLinks (links candidates : List StepLink) : Bool :=
  candidates.any fun candidate => links.any fun l => SatisfiedBy l candidate

/-- HasAllLinks (pkg/api/graph.go): for every needle, some haystack member
hay has hay.SatisfiedBy(needle). -/
def HasAllLinks (needles haystack : List StepLink) : Bool :=
  needles.all fun needle => haystack.any fun hay => SatisfiedBy hay needle

/-- addToNode (pkg/api/graph.go): append the child to the children list of
the parent unless already present; pointer identity of nodes becomes
index equality in this embedding. -/
def addToNode (children : List Nat) (child : Nat) : List Nat :=
  if child ∈ children then children else children ++ [child]

/-- The two innermost loops of BuildGraph for one ordered pair
(node, other): for every required link of node and created link of other
that match, attach node as a child of other and clear the isRoot flag of
node.  The state is (children list of other, isRoot flag of node). -/
def pairUpdate (node other : Step) (childIdx : Nat) (st : List Nat × Bool) : List Nat × Bool :=
  node.requires.foldl
    (fun st r =>
      other.creates.foldl
        (fun st c => if SatisfiedBy r c then (addToNode st.1 childIdx, false) else st)
        st)
    st

/-- The inner loop of BuildGraph over all other nodes, for the node with
index i; the table holds the children lists of all nodes. -/
def nodeScanAux (node : Step) (i : Nat) : List Step → Nat → List (List Nat) × Bool → List (List Nat) × Bool
  | [], _, st => st
  | other :: rest, j, st =>
    let p := pairUpdate node other i (st.1.getD j [], st.2)
    nodeScanAux node i rest (j + 1) (st.1.set j p.1, p.2)

/-- The outer loop of BuildGraph over all nodes, with their indices. -/
def buildGraphAux (steps : List Step) : List Step → Nat → List (List Nat) × List Nat → List (List Nat) × List Nat
  | [], _, st => st
  | node :: rest, i, st =>
    let s := nodeScanAux node i steps 0 (st.1, true)
    buildGraphAux steps rest (i + 1) (s.1, if s.2 then st.2 ++ [i] else st.2)

/-- BuildGraph (pkg/api/graph.go).  Nodes are indices into the step list;
the result is the children table (the heap structure of the StepNode
forest) together with the list of root indices, in input order. -/
def BuildGraph (steps : List Step) : List (List Nat) × List Nat :=
  buildGraphAux steps steps 0 (List.replicate steps.length [], [])

/-- The inner loop of the name-matching phase of BuildPartialGraph: scan
the requested names, remove the first occurrence equal to nm (the loop
breaks there), or report that none matched. -/
def matchName (nm : GoString) : List GoString → Option (List GoString)
  | [] => none
  | x :: xs => if x = nm then some xs else (matchName nm xs).map (x :: ·)

/-- The name-matching phase of BuildPartialGraph: for every step in input
order, record its name; if some remaining requested name equals it, mark
the step as a candidate, append its required links, and remove that name.
State: (candidates, required, remaining names, all names). -/
def seedAux : List Step → Nat → List Bool × List StepLink × List GoString × List GoString → List Bool × List StepLink × List GoString × List GoString
  | [], _, st => st
  | s :: rest, i, (cands, required, names, allNames) =>
    match matchName s.name names with
    | some names2 => seedAux rest (i + 1) (cands.set i true, required ++ s.requires, names2, allNames ++ [s.name])
    | none => seedAux rest (i + 1) (cands, required, names, allNames ++ [s.name])

def seed (steps : List Step) (names : List GoString) : List Bool × List StepLink × List GoString × List GoString :=
  seedAux steps 0 (List.replicate steps.length false, [], names, [])

/-- One pass of the fixed point expansion of BuildPartialGraph: select
every not-yet-selected step whose created links satisfy any currently
required link, appending its own required links to the frontier and
counting it as added. -/
def expandPassAux : List Step → Nat → List Bool × List StepLink × Nat → List Bool × List StepLink × Nat
  | [], _, st => st
  | s :: rest, i, (cands, required, added) =>
    if cands.getD i false then expandPassAux rest (i + 1) (cands, required, added)
    else if HasAnyLinks required s.creates then
      expandPassAux rest (i + 1) (cands.set i true, required ++ s.requires, added + 1)
    else expandPassAux rest (i + 1) (cands, required, added)

/-- The fixed point loop of BuildPartialGraph: repeat passes until a full
pass adds nothing.  The source loop terminates because every productive
pass selects at least one more step; fuel bounded by the step count
suffices, and BuildPartialGraph supplies length + 1. -/
def expandLoop (steps : List Step) : Nat → List Bool × List StepLink → List Bool × List StepLink
  | 0, st => st
  | fuel + 1, st =>
    let r := expandPassAux steps 0 (st.1, st.2, 0)
    if r.2.2 = 0 then (r.1, r.2.1) else expandLoop steps fuel (r.1, r.2.1)

/-- The selection phase of BuildPartialGraph: keep the steps marked as
candidates, in input order. -/
def targetedAux (steps : List Step) : List Bool → Nat → List Step → List Step
  | [], _, acc => acc
  | c :: rest, i, acc =>
    targetedAux steps rest (i + 1) (if c then acc ++ [steps.getD i default] else acc)

def targetedOf (steps : List Step) (cands : List Bool) : List Step :=
  targetedAux steps cands 0 []

/-- The NotFound error of BuildPartialGraph, carrying the unmatched
requested names and the names of all supplied steps. -/
structure NotFoundError where
  missing : List GoString
  known : List GoString
deriving DecidableEq

/-- BuildPartialGraph (pkg/api/graph.go). -/
def BuildPartialGraph (steps : List Step) (names : List GoString) : Except NotFoundError (List (List Nat) × List Nat) :=
  if names = [] then Except.ok (BuildGraph steps) else
  let s := seed steps names
  if s.2.2.1 = [] then
    Except.ok (BuildGraph (targetedOf steps (expandLoop steps (steps.length + 1) (s.1, s.2.1)).1))
  else Except.error ⟨s.2.2.1, s.2.2.2⟩

/-- The steps from which BuildPartialGraph builds its final graph: the
requested steps plus the steps selected by the fixed point expansion. -/
def partialTargeted (steps : List Step) (names : List GoString) : List Step :=
  targetedOf steps (expandLoop steps (steps.length + 1) ((seed steps names).1, (seed steps names).2.1)).1

/-- One required link of node is satisfied by one created link of other:
the condition under which BuildGraph records other as a parent of node. -/
def stepMatches (node other : Step) : Bool :=
  node.requires.any fun r => other.creates.any fun c => SatisfiedBy r c

/-- A node is a root when no node of the set (itself included) creates a
link satisfying one of its required links. -/
def isRootStep (steps : List Step) (node : Step) : Bool :=
  steps.all fun other => !stepMatches node other

/-- Parent-to-child edge in the graph heap model. -/
def GraphChild (g : List (List Nat) × List Nat) (p c : Nat) : Prop :=
  c ∈ g.1.getD p []

instance (g : List (List Nat) × List Nat) (p c : Nat) : Decidable (GraphChild g p c) :=
  inferInstanceAs (Decidable (c ∈ g.1.getD p []))

/-- Membership of a node in the returned forest: the node is reachable
from some returned root through children pointers. -/
def InForest (g : List (List Nat) × List Nat) (i : Nat) : Prop :=
  ∃ r ∈ g.2, Relation.ReflTransGen (GraphChild g) r i

/-- Positions (counted from i) of the elements of a list satisfying a
predicate, in increasing order. -/
def idxFilter (p : α → Bool) : List α → Nat → List Nat
  | [], _ => []
  | a :: rest, i => (if p a then [i] else []) ++ idxFilter p rest (i + 1)

/-- Closed form of the root list produced by the outer loop: one root
index per node that the quadratic scan leaves marked as root. -/
def rootsSpec (steps : List Step) (nodes : List Step) (i : Nat) : List Nat :=
  idxFilter (isRootStep steps) nodes i

/-- Closed form of the children list of the node with index k: one child
index per node whose requirements are satisfied by the created links of
node k. -/
def childrenSpec (steps : List Step) (k : Nat) (nodes : List Step) (i : Nat) : List Nat :=
  idxFilter (fun node => stepMatches node (steps.getD k default)) nodes i

/-- The indices selected by a candidate vector, in increasing order. -/
def selIdx (cands : List Bool) (i : Nat) : List Nat :=
  idxFilter (fun c => c) cands i

/-- Closed form of the selection phase: the steps at selected indices. -/
def selSpec (steps : List Step) (cands : List Bool) (i : Nat) : List Step :=
  (selIdx cands i).map fun k => steps.getD k default

/-- A step that requires exactly what it creates. -/
def c1SelfStep : Step := ⟨"a".toList, [.rpmRepo], [.rpmRepo]⟩

/-- Two steps that each require what the other creates. -/
def c10StepA : Step :=
  ⟨"a".toList, [.internalImageStreamTag "s".toList "x".toList],
    [.internalImageStreamTag "s".toList "y".toList]⟩

def c10StepB : Step :=
  ⟨"b".toList, [.internalImageStreamTag "s".toList "y".toList],
    [.internalImageStreamTag "s".toList "x".toList]⟩

/-- A producer step and a consumer step, the consumer being targeted. -/
def c4Steps : List Step :=
  [⟨"a".toList, [], [.internalImageStreamTag "p".toList "x".toList]⟩,
   ⟨"b".toList, [.internalImageStreamTag "p".toList "x".toList], []⟩]

def c4Names : List GoString := ["b".toList]

/-- A self-cycling producer and a targeted consumer depending on it. -/
def c4cSteps : List Step :=
  [⟨"c".toList, [.imagesReady], [.internalImageStreamTag "p".toList "x".toList, .imagesReady]⟩,
   ⟨"b".toList, [.internalImageStreamTag "p".toList "x".toList], []⟩]

def c4cNames : List GoString := ["b".toList]

/-- Two named steps and a request for an absent name. -/
def c3wSteps : List Step := [⟨"a".toList, [], []⟩, ⟨"b".toList, [], []⟩]

def c3wNames : List GoString := ["z".toList]

theorem mem_addToNode (ch : List Nat) (i x : Nat) : x ∈ addToNode ch i ↔ x ∈ ch ∨ x = i := by
  unfold addToNode
  split
  · rename_i h
    constructor
    · exact Or.inl
    · rintro (hx | rfl)
      · exact hx
      · exact h
  · simp

theorem addToNode_idem (ch : List Nat) (i : Nat) : addToNode (addToNode ch i) i = addToNode ch i := by
  unfold addToNode
  split
  · rename_i h
    simp [h]
  · simp

theorem addToNode_fresh (ch : List Nat) (i : Nat) (h : i ∉ ch) : addToNode ch i = ch ++ [i] := by
  unfold addToNode
  simp [h]

theorem createsFold_eq (r : StepLink) (i : Nat) (cs : List StepLink) :
    ∀ ch b, cs.foldl (fun st c => if SatisfiedBy r c then (addToNode st.1 i, false) else st) (ch, b)
      = (if cs.any (fun c => SatisfiedBy r c) then addToNode ch i else ch,
         b && !cs.any (fun c => SatisfiedBy r c)) := by
  induction cs with
  | nil => intro ch b; simp
  | cons c rest ih =>
    intro ch b
    by_cases h : SatisfiedBy r c = true
    · simp only [List.foldl_cons, h, if_true, ih, addToNode_idem, List.any_cons]
      by_cases h2 : rest.any (fun c => SatisfiedBy r c) = true <;> simp [h, h2]
    · simp only [Bool.not_eq_true] at h
      simp only [List.foldl_cons, h, Bool.false_eq_true, if_false, ih, List.any_cons]
      simp [h]

theorem pairUpdate_eq (node other : Step) (i : Nat) (ch : List Nat) (b : Bool) :
    pairUpdate node other i (ch, b)
      = (if stepMatches node other then addToNode ch i else ch, b && !stepMatches node other) := by
  unfold pairUpdate stepMatches
  induction node.requires generalizing ch b with
  | nil => simp
  | cons r rest ih =>
    simp only [List.foldl_cons, createsFold_eq, List.any_cons]
    rw [ih]
    by_cases h : (other.creates.any fun c => SatisfiedBy r c) = true
    · by_cases h2 : (rest.any fun r => other.creates.any fun c => SatisfiedBy r c) = true <;>
        simp [h, h2, addToNode_idem]
    · simp only [Bool.not_eq_true] at h
      simp [h]

theorem nodeScanAux_snd (node : Step) (i : Nat) (others : List Step) :
    ∀ j table b, (nodeScanAux node i others j (table, b)).2 = (b && others.all fun o => !stepMatches node o) := by
  induction others with
  | nil => intro j table b; simp [nodeScanAux]
  | cons o rest ih =>
    intro j table b
    simp only [nodeScanAux, pairUpdate_eq, ih, List.all_cons]
    by_cases h : stepMatches node o = true <;> simp [h]

theorem nodeScanAux_length (node : Step) (i : Nat) (others : List Step) :
    ∀ j table b, (nodeScanAux node i others j (table, b)).1.length = table.length := by
  induction others with
  | nil => intro j table b; simp [nodeScanAux]
  | cons o rest ih =>
    intro j table b
    simp only [nodeScanAux, ih, List.length_set]

theorem nodeScanAux_fst_getD (node : Step) (i : Nat) (others : List Step) :
    ∀ j table b k, (nodeScanAux node i others j (table, b)).1.getD k []
      = if j ≤ k ∧ k < j + others.length ∧ k < table.length ∧ stepMatches node (others.getD (k - j) default) = true
        then addToNode (table.getD k []) i else table.getD k [] := by
  induction others with
  | nil =>
    intro j table b k
    rw [nodeScanAux, if_neg]
    rintro ⟨h1, h2, -, -⟩
    simp at h2
    omega
  | cons o rest ih =>
    intro j table b k
    rw [nodeScanAux]
    simp only [pairUpdate_eq]
    rw [ih]
    by_cases hkj : k = j
    · subst hkj
      rw [if_neg (by rintro ⟨h1, -, -, -⟩; omega)]
      by_cases hlen : k < table.length
      · have hset : ((table.set k (if stepMatches node o = true then addToNode (table.getD k []) i else table.getD k [])).getD k []) = (if stepMatches node o = true then addToNode (table.getD k []) i else table.getD k []) := by
          rw [List.getD_eq_getElem?_getD, List.getElem?_set_self (by simpa using hlen)]
          rfl
        rw [hset]
        have hcond : (k ≤ k ∧ k < k + (o :: rest).length ∧ k < table.length ∧ stepMatches node ((o :: rest).getD (k - k) default) = true) ↔ stepMatches node o = true := by
          constructor
          · rintro ⟨-, -, -, h4⟩
            simpa [Nat.sub_self] using h4
          · intro h
            exact ⟨Nat.le_refl k, by simp, hlen, by simpa [Nat.sub_self] using h⟩
        by_cases hm : stepMatches node o = true
        · rw [if_pos hm, if_pos (hcond.mpr hm)]
        · rw [if_neg hm, if_neg (fun hc => hm (hcond.mp hc))]
      · rw [List.set_eq_of_length_le (by omega), if_neg (by rintro ⟨-, -, h3, -⟩; exact hlen h3)]
    · have hset2 : ((table.set j (if stepMatches node o = true then addToNode (table.getD j []) i else table.getD j [])).getD k []) = table.getD k [] := by
        rw [List.getD_eq_getElem?_getD, List.getElem?_set_ne (fun h => hkj h.symm), ← List.getD_eq_getElem?_getD]
      rw [hset2, List.length_set]
      have hcond : (j + 1 ≤ k ∧ k < j + 1 + rest.length ∧ k < table.length ∧ stepMatches node (rest.getD (k - (j + 1)) default) = true) ↔ (j ≤ k ∧ k < j + (o :: rest).length ∧ k < table.length ∧ stepMatches node ((o :: rest).getD (k - j) default) = true) := by
        constructor
        · rintro ⟨h1, h2, h3, h4⟩
          refine ⟨by omega, by simp; omega, h3, ?_⟩
          have hs : k - j = (k - (j + 1)) + 1 := by omega
          rw [hs, List.getD_cons_succ]
          exact h4
        · rintro ⟨h1, h2, h3, h4⟩
          refine ⟨by omega, by simp at h2; omega, h3, ?_⟩
          have hs : k - j = (k - (j + 1)) + 1 := by omega
          rw [hs, List.getD_cons_succ] at h4
          exact h4
      by_cases hc : j + 1 ≤ k ∧ k < j + 1 + rest.length ∧ k < table.length ∧ stepMatches node (rest.getD (k - (j + 1)) default) = true
      · rw [if_pos hc, if_pos (hcond.mp hc)]
      · rw [if_neg hc, if_neg (fun h => hc (hcond.mpr h))]

theorem idxFilter_cons (p : α → Bool) (a : α) (rest : List α) (i : Nat) :
    idxFilter p (a :: rest) i = (if p a then [i] else []) ++ idxFilter p rest (i + 1) := rfl

theorem buildGraphAux_snd (steps : List Step) (nodes : List Step) :
    ∀ i table roots, (buildGraphAux steps nodes i (table, roots)).2 = roots ++ rootsSpec steps nodes i := by
  induction nodes with
  | nil => intro i table roots; simp [buildGraphAux, rootsSpec, idxFilter]
  | cons node rest ih =>
    intro i table roots
    rw [buildGraphAux]
    simp only [nodeScanAux_snd, Bool.true_and]
    rw [ih]
    simp only [rootsSpec, idxFilter_cons, isRootStep]
    by_cases h : (steps.all fun other => !stepMatches node other) = true <;>
      simp [h, List.append_assoc]

theorem buildGraphAux_length (steps : List Step) (nodes : List Step) :
    ∀ i table roots, (buildGraphAux steps nodes i (table, roots)).1.length = table.length := by
  induction nodes with
  | nil => intro i table roots; simp [buildGraphAux]
  | cons node rest ih =>
    intro i table roots
    rw [buildGraphAux]
    simp only [ih, nodeScanAux_length]

theorem buildGraphAux_fst_getD (steps : List Step) (nodes : List Step) :
    ∀ i table roots k, k < steps.length → k < table.length → (∀ x ∈ table.getD k [], x < i) →
      (buildGraphAux steps nodes i (table, roots)).1.getD k []
        = table.getD k [] ++ childrenSpec steps k nodes i := by
  induction nodes with
  | nil => intro i table roots k _ _ _; simp [buildGraphAux, childrenSpec, idxFilter]
  | cons node rest ih =>
    intro i table roots k hks hkt hfresh
    rw [buildGraphAux]
    have hentry : (nodeScanAux node i steps 0 (table, true)).1.getD k []
        = table.getD k [] ++ (if stepMatches node (steps.getD k default) = true then [i] else []) := by
      rw [nodeScanAux_fst_getD]
      by_cases hm : stepMatches node (steps.getD k default) = true
      · rw [if_pos ⟨Nat.zero_le k, by omega, hkt, by rw [Nat.sub_zero]; exact hm⟩, if_pos hm]
        exact addToNode_fresh _ _ (fun hmem => by have := hfresh i hmem; omega)
      · rw [if_neg (by rintro ⟨-, -, -, h4⟩; rw [Nat.sub_zero] at h4; exact hm h4), if_neg hm]
        simp
    have hlen2 : k < (nodeScanAux node i steps 0 (table, true)).1.length := by
      rw [nodeScanAux_length]; exact hkt
    have hfresh2 : ∀ x ∈ (nodeScanAux node i steps 0 (table, true)).1.getD k [], x < i + 1 := by
      intro x hx
      rw [hentry] at hx
      rcases List.mem_append.mp hx with hold | hnew
      · have := hfresh x hold; omega
      · by_cases hm : stepMatches node (steps.getD k default) = true
        · rw [if_pos hm, List.mem_singleton] at hnew; omega
        · rw [if_neg hm] at hnew; cases hnew
    rw [ih (i + 1) _ _ k hks hlen2 hfresh2, hentry]
    simp only [childrenSpec, idxFilter_cons, List.append_assoc]

theorem BuildGraph_snd (steps : List Step) : (BuildGraph steps).2 = rootsSpec steps steps 0 := by
  rw [BuildGraph, buildGraphAux_snd]
  simp

theorem BuildGraph_fst_length (steps : List Step) : (BuildGraph steps).1.length = steps.length := by
  rw [BuildGraph, buildGraphAux_length, List.length_replicate]

theorem getD_replicate_nil (n k : Nat) : (List.replicate n ([] : List Nat)).getD k [] = [] := by
  by_cases h : k < n
  · rw [List.getD_eq_getElem _ _ (by simpa using h), List.getElem_replicate]
  · rw [List.getD_eq_default]
    simpa using Nat.le_of_not_lt h

theorem BuildGraph_fst_getD (steps : List Step) (k : Nat) (hk : k < steps.length) :
    (BuildGraph steps).1.getD k [] = childrenSpec steps k steps 0 := by
  rw [BuildGraph, buildGraphAux_fst_getD steps steps 0 _ _ k hk (by simpa using hk)
    (by rw [getD_replicate_nil]; intro x hx; cases hx), getD_replicate_nil]
  simp

theorem BuildGraph_fst_getD_ge (steps : List Step) (k : Nat) (hk : steps.length ≤ k) :
    (BuildGraph steps).1.getD k [] = [] := by
  rw [List.getD_eq_default]
  rw [BuildGraph_fst_length]
  exact hk

theorem mem_idxFilter [Inhabited α] (p : α → Bool) (l : List α) :
    ∀ i x, x ∈ idxFilter p l i ↔ i ≤ x ∧ x < i + l.length ∧ p (l.getD (x - i) default) = true := by
  induction l with
  | nil =>
    intro i x
    simp only [idxFilter, List.not_mem_nil, false_iff]
    rintro ⟨h1, h2, -⟩
    simp at h2
    omega
  | cons a rest ih =>
    intro i x
    rw [idxFilter_cons, List.mem_append, ih]
    constructor
    · rintro (hif | ⟨h1, h2, h3⟩)
      · have hx : x = i := by
          by_cases hp : p a = true
          · rw [if_pos hp, List.mem_singleton] at hif; exact hif
          · rw [if_neg hp] at hif; cases hif
        subst hx
        have hp : p a = true := by
          by_cases hp : p a = true
          · exact hp
          · rw [if_neg hp] at hif; cases hif
        exact ⟨Nat.le_refl x, by simp, by rw [Nat.sub_self, List.getD_cons_zero]; exact hp⟩
      · refine ⟨by omega, by simp; omega, ?_⟩
        have hs : x - i = (x - (i + 1)) + 1 := by omega
        rw [hs, List.getD_cons_succ]
        exact h3
    · rintro ⟨h1, h2, h3⟩
      by_cases hxi : x = i
      · subst hxi
        rw [Nat.sub_self, List.getD_cons_zero] at h3
        left
        rw [if_pos h3]
        exact List.mem_singleton.mpr rfl
      · right
        refine ⟨by omega, by simp at h2; omega, ?_⟩
        have hs : x - i = (x - (i + 1)) + 1 := by omega
        rw [hs, List.getD_cons_succ] at h3
        exact h3

theorem idxFilter_nodup [Inhabited α] (p : α → Bool) (l : List α) : ∀ i, (idxFilter p l i).Nodup := by
  induction l with
  | nil => intro i; simp [idxFilter]
  | cons a rest ih =>
    intro i
    rw [idxFilter_cons]
    by_cases hp : p a = true
    · rw [if_pos hp]
      refine List.Nodup.append (by simp) (ih (i + 1)) ?_
      intro x hx hy
      rw [List.mem_singleton] at hx
      rcases (mem_idxFilter p rest (i + 1) x).mp hy with ⟨h1, -, -⟩
      omega
    · rw [if_neg hp]
      simpa using ih (i + 1)

theorem stepMatches_iff (node other : Step) :
    stepMatches node other = true ↔ ∃ r ∈ node.requires, ∃ c ∈ other.creates, SatisfiedBy r c = true := by
  simp [stepMatches]

theorem isRootStep_iff (steps : List Step) (node : Step) :
    isRootStep steps node = true ↔ ∀ j < steps.length, stepMatches node (steps.getD j default) = false := by
  rw [isRootStep, List.all_eq_true]
  constructor
  · intro h j hj
    have hmem : steps.getD j default ∈ steps := by
      rw [List.getD_eq_getElem _ _ hj]
      exact List.getElem_mem hj
    have := h _ hmem
    simpa using this
  · intro h o ho
    rcases List.mem_iff_getElem.mp ho with ⟨j, hj, rfl⟩
    have := h j hj
    rw [List.getD_eq_getElem _ _ hj] at this
    simpa using this

theorem mem_BuildGraph_roots (steps : List Step) (x : Nat) :
    x ∈ (BuildGraph steps).2 ↔ x < steps.length ∧ isRootStep steps (steps.getD x default) = true := by
  rw [BuildGraph_snd, rootsSpec, mem_idxFilter]
  constructor
  · rintro ⟨-, h2, h3⟩
    rw [Nat.sub_zero] at h3
    exact ⟨by omega, h3⟩
  · rintro ⟨h1, h2⟩
    exact ⟨Nat.zero_le x, by omega, by rw [Nat.sub_zero]; exact h2⟩

theorem mem_BuildGraph_children (steps : List Step) (k c : Nat) :
    c ∈ (BuildGraph steps).1.getD k [] ↔
      c < steps.length ∧ k < steps.length ∧ stepMatches (steps.getD c default) (steps.getD k default) = true := by
  by_cases hk : k < steps.length
  · rw [BuildGraph_fst_getD steps k hk, childrenSpec, mem_idxFilter]
    constructor
    · rintro ⟨-, h2, h3⟩
      rw [Nat.sub_zero] at h3
      exact ⟨by omega, hk, h3⟩
    · rintro ⟨h1, -, h3⟩
      exact ⟨Nat.zero_le c, by omega, by rw [Nat.sub_zero]; exact h3⟩
  · rw [BuildGraph_fst_getD_ge steps k (Nat.le_of_not_lt hk)]
    simp only [List.not_mem_nil, false_iff]
    rintro ⟨-, h2, -⟩
    exact hk h2

theorem BuildGraph_children_nodup (steps : List Step) (k : Nat) :
    ((BuildGraph steps).1.getD k []).Nodup := by
  by_cases hk : k < steps.length
  · rw [BuildGraph_fst_getD steps k hk, childrenSpec]
    exact idxFilter_nodup _ _ 0
  · rw [BuildGraph_fst_getD_ge steps k (Nat.le_of_not_lt hk)]
    simp

theorem matchName_none (nm : GoString) (ns : List GoString) :
    matchName nm ns = none ↔ nm ∉ ns := by
  induction ns with
  | nil => simp [matchName]
  | cons x xs ih =>
    by_cases hx : x = nm
    · subst hx
      simp [matchName]
    · rw [matchName, if_neg hx]
      rw [List.mem_cons]
      constructor
      · intro h
        rw [Option.map_eq_none'] at h
        rintro (h1 | h2)
        · exact hx h1.symm
        · exact (ih.mp h) h2
      · intro h
        rw [Option.map_eq_none', ih]
        intro hmem
        exact h (Or.inr hmem)

theorem matchName_some_count (nm : GoString) (ns : List GoString) :
    ∀ ns2, matchName nm ns = some ns2 →
      ∀ x, ns2.count x = ns.count x - (if nm = x then 1 else 0) := by
  induction ns with
  | nil => intro ns2 h; cases h
  | cons y ys ih =>
    intro ns2 h x
    by_cases hy : y = nm
    · subst hy
      rw [matchName, if_pos rfl] at h
      cases h
      rw [List.count_cons]
      by_cases hx : y = x <;> simp [hx]
    · rw [matchName, if_neg hy] at h
      rcases Option.map_eq_some'.mp h with ⟨zs, hzs, rfl⟩
      have hmem : nm ∈ ys := by
        by_contra hnot
        rw [← matchName_none nm ys] at hnot
        rw [hnot] at hzs
        cases hzs
      have hcount : 0 < ys.count nm := List.count_pos_iff.mpr hmem
      have hz := ih zs hzs x
      by_cases hnx : nm = x
      · subst hnx
        rw [if_pos rfl] at hz ⊢
        have hyx : (y == nm) = false := by simpa using hy
        rw [List.count_cons, List.count_cons, hyx, hz]
        simp only [Bool.false_eq_true, if_false]
        omega
      · rw [if_neg hnx] at hz ⊢
        rw [List.count_cons, List.count_cons, hz]
        omega

theorem seedAux_allNames (nodes : List Step) :
    ∀ i cands required ns acc,
      (seedAux nodes i (cands, required, ns, acc)).2.2.2 = acc ++ nodes.map Step.name := by
  induction nodes with
  | nil => intro i cands required ns acc; simp [seedAux]
  | cons s rest ih =>
    intro i cands required ns acc
    rw [seedAux]
    cases hm : matchName s.name ns with
    | some ns2 => rw [ih]; simp
    | none => rw [ih]; simp

theorem seedAux_count (nodes : List Step) :
    ∀ i cands required ns acc x,
      (seedAux nodes i (cands, required, ns, acc)).2.2.1.count x
        = ns.count x - (nodes.map Step.name).count x := by
  induction nodes with
  | nil => intro i cands required ns acc x; simp [seedAux]
  | cons s rest ih =>
    intro i cands required ns acc x
    rw [seedAux]
    cases hm : matchName s.name ns with
    | some ns2 =>
      rw [ih]
      have hc := matchName_some_count s.name ns ns2 hm x
      rw [hc, List.map_cons, List.count_cons, Nat.sub_sub]
      congr 1
      by_cases hx : s.name = x <;> (simp [hx]; try omega)
    | none =>
      rw [ih]
      rw [List.map_cons, List.count_cons]
      by_cases hx : s.name = x
      · subst hx
        have hnot : s.name ∉ ns := (matchName_none s.name ns).mp hm
        have : ns.count s.name = 0 := List.count_eq_zero.mpr hnot
        simp [this]
      · have : (s.name == x) = false := by simpa using hx
        simp [this]

theorem seedAux_len (nodes : List Step) :
    ∀ i cands required ns acc, (seedAux nodes i (cands, required, ns, acc)).1.length = cands.length := by
  induction nodes with
  | nil => intro i cands required ns acc; simp [seedAux]
  | cons s rest ih =>
    intro i cands required ns acc
    rw [seedAux]
    cases hm : matchName s.name ns with
    | some ns2 => rw [ih, List.length_set]
    | none => rw [ih]

theorem seedAux_mono_required (nodes : List Step) :
    ∀ i cands required ns acc l, l ∈ required →
      l ∈ (seedAux nodes i (cands, required, ns, acc)).2.1 := by
  induction nodes with
  | nil => intro i cands required ns acc l hl; exact hl
  | cons s rest ih =>
    intro i cands required ns acc l hl
    rw [seedAux]
    cases hm : matchName s.name ns with
    | some ns2 => exact ih _ _ _ _ _ _ (List.mem_append_left _ hl)
    | none => exact ih _ _ _ _ _ _ hl

theorem getD_set_true (cands : List Bool) (i k : Nat) (h : cands.getD k false = true) :
    (cands.set i true).getD k false = true := by
  by_cases hik : i = k
  · subst hik
    by_cases hl : i < cands.length
    · rw [List.getD_eq_getElem?_getD, List.getElem?_set_self (by simpa using hl)]
      rfl
    · rw [List.set_eq_of_length_le (Nat.le_of_not_lt hl)]
      exact h
  · rw [List.getD_eq_getElem?_getD, List.getElem?_set_ne hik, ← List.getD_eq_getElem?_getD]
    exact h

theorem getD_set_true_self (cands : List Bool) (i : Nat) (hl : i < cands.length) :
    (cands.set i true).getD i false = true := by
  rw [List.getD_eq_getElem?_getD, List.getElem?_set_self (by simpa using hl)]
  rfl

theorem getD_set_other (cands : List Bool) (i k : Nat) (hik : i ≠ k) :
    (cands.set i true).getD k false = cands.getD k false := by
  rw [List.getD_eq_getElem?_getD, List.getElem?_set_ne hik, ← List.getD_eq_getElem?_getD]

theorem count_true_set (cands : List Bool) :
    ∀ i, i < cands.length → cands.getD i false = false →
      (cands.set i true).count true = cands.count true + 1 := by
  induction cands with
  | nil => intro i h; simp at h
  | cons c rest ih =>
    intro i hi hc
    cases i with
    | zero =>
      rw [List.getD_cons_zero] at hc
      subst hc
      simp [List.count_cons]
    | succ m =>
      rw [List.getD_cons_succ] at hc
      have := ih m (by simpa using Nat.lt_of_succ_lt_succ hi) hc
      simp only [List.set_cons_succ, List.count_cons, this]
      omega

theorem seedAux_inv (steps : List Step) (nodes : List Step) :
    ∀ i cands required ns acc,
      (∀ m, nodes.getD m default = steps.getD (i + m) default) →
      (∀ k, cands.getD k false = true → ∀ l ∈ (steps.getD k default).requires, l ∈ required) →
      ∀ k, (seedAux nodes i (cands, required, ns, acc)).1.getD k false = true →
        ∀ l ∈ (steps.getD k default).requires, l ∈ (seedAux nodes i (cands, required, ns, acc)).2.1 := by
  induction nodes with
  | nil =>
    intro i cands required ns acc halign hc k hk l hl
    exact hc k hk l hl
  | cons s rest ih =>
    intro i cands required ns acc halign hc k
    have hs : s = steps.getD i default := by
      have := halign 0
      rw [List.getD_cons_zero] at this
      simpa using this
    have halign2 : ∀ m, rest.getD m default = steps.getD ((i + 1) + m) default := by
      intro m
      have := halign (m + 1)
      rw [List.getD_cons_succ] at this
      have heq : i + (m + 1) = (i + 1) + m := by omega
      rw [heq] at this
      exact this
    rw [seedAux]
    cases hm : matchName s.name ns with
    | some ns2 =>
      refine ih (i + 1) _ _ _ _ halign2 ?_ k
      intro k2 hk2 l hl
      by_cases hki : k2 = i
      · subst hki
        rw [← hs] at hl
        exact List.mem_append_right _ hl
      · rw [getD_set_other cands i k2 (fun h => hki h.symm)] at hk2
        exact List.mem_append_left _ (hc k2 hk2 l hl)
    | none =>
      exact ih (i + 1) _ _ _ _ halign2 hc k

theorem expandPassAux_len (nodes : List Step) :
    ∀ i cands required added, (expandPassAux nodes i (cands, required, added)).1.length = cands.length := by
  induction nodes with
  | nil => intro i cands required added; rfl
  | cons s rest ih =>
    intro i cands required added
    rw [expandPassAux]
    by_cases h1 : cands.getD i false = true
    · rw [if_pos h1, ih]
    · rw [if_neg (by simpa using h1)]
      by_cases h2 : HasAnyLinks required s.creates = true
      · rw [if_pos h2, ih, List.length_set]
      · rw [if_neg h2, ih]

theorem expandPassAux_mono_cands (nodes : List Step) :
    ∀ i cands required added k, cands.getD k false = true →
      (expandPassAux nodes i (cands, required, added)).1.getD k false = true := by
  induction nodes with
  | nil => intro i cands required added k hk; exact hk
  | cons s rest ih =>
    intro i cands required added k hk
    rw [expandPassAux]
    by_cases h1 : cands.getD i false = true
    · rw [if_pos h1]; exact ih _ _ _ _ _ hk
    · rw [if_neg (by simpa using h1)]
      by_cases h2 : HasAnyLinks required s.creates = true
      · rw [if_pos h2]
        exact ih _ _ _ _ _ (getD_set_true cands i k hk)
      · rw [if_neg h2]; exact ih _ _ _ _ _ hk

theorem expandPassAux_mono_required (nodes : List Step) :
    ∀ i cands required added l, l ∈ required →
      l ∈ (expandPassAux nodes i (cands, required, added)).2.1 := by
  induction nodes with
  | nil => intro i cands required added l hl; exact hl
  | cons s rest ih =>
    intro i cands required added l hl
    rw [expandPassAux]
    by_cases h1 : cands.getD i false = true
    · rw [if_pos h1]; exact ih _ _ _ _ _ hl
    · rw [if_neg (by simpa using h1)]
      by_cases h2 : HasAnyLinks required s.creates = true
      · rw [if_pos h2]
        exact ih _ _ _ _ _ (List.mem_append_left _ hl)
      · rw [if_neg h2]; exact ih _ _ _ _ _ hl

theorem expandPassAux_added_ge (nodes : List Step) :
    ∀ i cands required added, added ≤ (expandPassAux nodes i (cands, required, added)).2.2 := by
  induction nodes with
  | nil => intro i cands required added; exact Nat.le_refl added
  | cons s rest ih =>
    intro i cands required added
    rw [expandPassAux]
    by_cases h1 : cands.getD i false = true
    · rw [if_pos h1]; exact ih _ _ _ _
    · rw [if_neg (by simpa using h1)]
      by_cases h2 : HasAnyLinks required s.creates = true
      · rw [if_pos h2]
        exact Nat.le_trans (Nat.le_succ added) (ih _ _ _ _)
      · rw [if_neg h2]; exact ih _ _ _ _

theorem expandPassAux_inv (steps : List Step) (nodes : List Step) :
    ∀ i cands required added,
      (∀ m, nodes.getD m default = steps.getD (i + m) default) →
      (∀ k, cands.getD k false = true → ∀ l ∈ (steps.getD k default).requires, l ∈ required) →
      ∀ k, (expandPassAux nodes i (cands, required, added)).1.getD k false = true →
        ∀ l ∈ (steps.getD k default).requires, l ∈ (expandPassAux nodes i (cands, required, added)).2.1 := by
  induction nodes with
  | nil =>
    intro i cands required added halign hc k hk l hl
    exact hc k hk l hl
  | cons s rest ih =>
    intro i cands required added halign hc k
    have hs : s = steps.getD i default := by
      have := halign 0
      rw [List.getD_cons_zero] at this
      simpa using this
    have halign2 : ∀ m, rest.getD m default = steps.getD ((i + 1) + m) default := by
      intro m
      have := halign (m + 1)
      rw [List.getD_cons_succ] at this
      have heq : i + (m + 1) = (i + 1) + m := by omega
      rw [heq] at this
      exact this
    rw [expandPassAux]
    by_cases h1 : cands.getD i false = true
    · rw [if_pos h1]
      exact ih (i + 1) _ _ _ halign2 hc k
    · rw [if_neg (by simpa using h1)]
      by_cases h2 : HasAnyLinks required s.creates = true
      · rw [if_pos h2]
        refine ih (i + 1) _ _ _ halign2 ?_ k
        intro k2 hk2 l hl
        by_cases hki : k2 = i
        · subst hki
          rw [← hs] at hl
          exact List.mem_append_right _ hl
        · rw [getD_set_other cands i k2 (fun h => hki h.symm)] at hk2
          exact List.mem_append_left _ (hc k2 hk2 l hl)
      · rw [if_neg h2]
        exact ih (i + 1) _ _ _ halign2 hc k

theorem expandPassAux_count (nodes : List Step) :
    ∀ i cands required added, i + nodes.length ≤ cands.length →
      (expandPassAux nodes i (cands, required, added)).1.count true + added
        = cands.count true + (expandPassAux nodes i (cands, required, added)).2.2 := by
  induction nodes with
  | nil => intro i cands required added h; rfl
  | cons s rest ih =>
    intro i cands required added hlen
    have hi : i < cands.length := by simp at hlen; omega
    have hlen2 : (i + 1) + rest.length ≤ cands.length := by simp at hlen; omega
    rw [expandPassAux]
    by_cases h1 : cands.getD i false = true
    · rw [if_pos h1]
      exact ih _ _ _ _ hlen2
    · rw [if_neg (by simpa using h1)]
      by_cases h2 : HasAnyLinks required s.creates = true
      · rw [if_pos h2]
        have hset : (cands.set i true).count true = cands.count true + 1 :=
          count_true_set cands i hi (by simpa using h1)
        have := ih (i + 1) (cands.set i true) (required ++ s.requires) (added + 1)
          (by rw [List.length_set]; exact hlen2)
        rw [hset] at this
        omega
      · rw [if_neg h2]
        exact ih _ _ _ _ hlen2

theorem expandPassAux_zero (nodes : List Step) :
    ∀ i cands required added,
      (expandPassAux nodes i (cands, required, added)).2.2 = added →
      ((expandPassAux nodes i (cands, required, added)).1 = cands
        ∧ (expandPassAux nodes i (cands, required, added)).2.1 = required)
      ∧ ∀ m < nodes.length, cands.getD (i + m) false = false →
          HasAnyLinks required (nodes.getD m default).creates = false := by
  induction nodes with
  | nil =>
    intro i cands required added _
    exact ⟨⟨rfl, rfl⟩, fun m hm => by simp at hm⟩
  | cons s rest ih =>
    intro i cands required added hadd
    rw [expandPassAux] at hadd ⊢
    by_cases h1 : cands.getD i false = true
    · rw [if_pos h1] at hadd ⊢
      rcases ih (i + 1) cands required added hadd with ⟨hstate, hprop⟩
      refine ⟨hstate, ?_⟩
      intro m hm hcm
      cases m with
      | zero =>
        rw [Nat.add_zero] at hcm
        rw [h1] at hcm
        cases hcm
      | succ m2 =>
        have heq : i + (m2 + 1) = (i + 1) + m2 := by omega
        rw [heq] at hcm
        have := hprop m2 (by simpa using Nat.lt_of_succ_lt_succ hm) hcm
        rw [List.getD_cons_succ]
        exact this
    · rw [if_neg (by simpa using h1)] at hadd ⊢
      by_cases h2 : HasAnyLinks required s.creates = true
      · exfalso
        rw [if_pos h2] at hadd
        have := expandPassAux_added_ge rest (i + 1) (cands.set i true) (required ++ s.requires) (added + 1)
        omega
      · rw [if_neg h2] at hadd ⊢
        rcases ih (i + 1) cands required added hadd with ⟨hstate, hprop⟩
        refine ⟨hstate, ?_⟩
        intro m hm hcm
        cases m with
        | zero =>
          rw [List.getD_cons_zero]
          simpa using h2
        | succ m2 =>
          have heq : i + (m2 + 1) = (i + 1) + m2 := by omega
          rw [heq] at hcm
          have := hprop m2 (by simpa using Nat.lt_of_succ_lt_succ hm) hcm
          rw [List.getD_cons_succ]
          exact this

theorem expandLoop_len (steps : List Step) :
    ∀ fuel cands required, (expandLoop steps fuel (cands, required)).1.length = cands.length := by
  intro fuel
  induction fuel with
  | zero => intro cands required; rfl
  | succ f ih =>
    intro cands required
    rw [expandLoop]
    by_cases hr : (expandPassAux steps 0 (cands, required, 0)).2.2 = 0
    · rw [if_pos hr]
      exact expandPassAux_len steps 0 cands required 0
    · rw [if_neg hr, ih]
      exact expandPassAux_len steps 0 cands required 0

theorem expandLoop_mono_cands (steps : List Step) :
    ∀ fuel cands required k, cands.getD k false = true →
      (expandLoop steps fuel (cands, required)).1.getD k false = true := by
  intro fuel
  induction fuel with
  | zero => intro cands required k hk; exact hk
  | succ f ih =>
    intro cands required k hk
    rw [expandLoop]
    by_cases hr : (expandPassAux steps 0 (cands, required, 0)).2.2 = 0
    · rw [if_pos hr]
      exact expandPassAux_mono_cands steps 0 cands required 0 k hk
    · rw [if_neg hr]
      exact ih _ _ k (expandPassAux_mono_cands steps 0 cands required 0 k hk)

theorem expandLoop_inv (steps : List Step) :
    ∀ fuel cands required,
      (∀ k, cands.getD k false = true → ∀ l ∈ (steps.getD k default).requires, l ∈ required) →
      ∀ k, (expandLoop steps fuel (cands, required)).1.getD k false = true →
        ∀ l ∈ (steps.getD k default).requires, l ∈ (expandLoop steps fuel (cands, required)).2 := by
  intro fuel
  induction fuel with
  | zero => intro cands required hc k hk l hl; exact hc k hk l hl
  | succ f ih =>
    intro cands required hc k
    have halign : ∀ m, steps.getD m default = steps.getD (0 + m) default := by
      intro m; rw [Nat.zero_add]
    rw [expandLoop]
    by_cases hr : (expandPassAux steps 0 (cands, required, 0)).2.2 = 0
    · rw [if_pos hr]
      exact expandPassAux_inv steps steps 0 cands required 0 halign hc k
    · rw [if_neg hr]
      refine ih _ _ ?_ k
      exact expandPassAux_inv steps steps 0 cands required 0 halign hc

theorem expandLoop_closure (steps : List Step) :
    ∀ fuel cands required, cands.length = steps.length →
      steps.length < fuel + cands.count true →
      ∀ k < steps.length, (expandLoop steps fuel (cands, required)).1.getD k false = false →
        HasAnyLinks (expandLoop steps fuel (cands, required)).2 (steps.getD k default).creates = false := by
  intro fuel
  induction fuel with
  | zero =>
    intro cands required hlen hfuel
    exfalso
    have := List.count_le_length true cands
    omega
  | succ f ih =>
    intro cands required hlen hfuel k hk hcand
    rw [expandLoop] at hcand ⊢
    by_cases hr : (expandPassAux steps 0 (cands, required, 0)).2.2 = 0
    · rw [if_pos hr] at hcand ⊢
      rcases expandPassAux_zero steps 0 cands required 0 hr with ⟨⟨hc1, hc2⟩, hprop⟩
      rw [hc2]
      rw [hc1] at hcand
      have := hprop k hk (by rw [Nat.zero_add]; exact hcand)
      exact this
    · rw [if_neg hr] at hcand ⊢
      have hcount := expandPassAux_count steps 0 cands required 0 (by omega)
      have hlen2 : (expandPassAux steps 0 (cands, required, 0)).1.length = steps.length := by
        rw [expandPassAux_len]; exact hlen
      refine ih _ _ hlen2 ?_ k hk hcand
      have hpos : 0 < (expandPassAux steps 0 (cands, required, 0)).2.2 := Nat.pos_of_ne_zero hr
      omega

theorem getD_replicate (a : α) (n k : Nat) : (List.replicate n a).getD k a = a := by
  by_cases h : k < n
  · rw [List.getD_eq_getElem _ _ (by simpa using h), List.getElem_replicate]
  · rw [List.getD_eq_default]
    simpa using Nat.le_of_not_lt h

theorem HasAnyLinks_false (links candidates : List StepLink) :
    HasAnyLinks links candidates = false ↔
      ∀ c ∈ candidates, ∀ l ∈ links, SatisfiedBy l c = false := by
  simp [HasAnyLinks, List.any_eq_false]

theorem targetedAux_eq (steps : List Step) (cs : List Bool) :
    ∀ i acc, targetedAux steps cs i acc = acc ++ selSpec steps cs i := by
  induction cs with
  | nil => intro i acc; simp [targetedAux, selSpec, selIdx, idxFilter]
  | cons c rest ih =>
    intro i acc
    rw [targetedAux, ih]
    cases c
    · simp [selSpec, selIdx, idxFilter_cons]
    · simp [selSpec, selIdx, idxFilter_cons, List.append_assoc]

theorem targetedOf_eq (steps : List Step) (cands : List Bool) :
    targetedOf steps cands = selSpec steps cands 0 := by
  rw [targetedOf, targetedAux_eq]
  simp

theorem selSpec_length (steps : List Step) (cands : List Bool) (i : Nat) :
    (selSpec steps cands i).length = (selIdx cands i).length := by
  rw [selSpec, List.length_map]

theorem selSpec_getD (steps : List Step) (cands : List Bool) (a : Nat)
    (ha : a < (selIdx cands 0).length) :
    (selSpec steps cands 0).getD a default = steps.getD ((selIdx cands 0).getD a 0) default := by
  rw [selSpec, List.getD_eq_getElem _ _ (by rw [List.length_map]; exact ha), List.getElem_map,
    List.getD_eq_getElem _ _ ha]

theorem mem_selIdx (cands : List Bool) (i x : Nat) :
    x ∈ selIdx cands i ↔ i ≤ x ∧ x < i + cands.length ∧ cands.getD (x - i) false = true := by
  have h := mem_idxFilter (fun c => c) cands i x
  exact h

theorem selIdx_getD_mem (cands : List Bool) (a : Nat) (ha : a < (selIdx cands 0).length) :
    (selIdx cands 0).getD a 0 < cands.length
      ∧ cands.getD ((selIdx cands 0).getD a 0) false = true := by
  have hmem : (selIdx cands 0).getD a 0 ∈ selIdx cands 0 := by
    rw [List.getD_eq_getElem _ _ ha]
    exact List.getElem_mem ha
  rw [mem_selIdx] at hmem
  rcases hmem with ⟨-, h2, h3⟩
  rw [Nat.sub_zero] at h3
  exact ⟨by omega, h3⟩

theorem selIdx_surj (cands : List Bool) (j : Nat) (hj : j < cands.length)
    (hcj : cands.getD j false = true) :
    ∃ a, a < (selIdx cands 0).length ∧ (selIdx cands 0).getD a 0 = j := by
  have hmem : j ∈ selIdx cands 0 := by
    rw [mem_selIdx]
    exact ⟨Nat.zero_le j, by omega, by rw [Nat.sub_zero]; exact hcj⟩
  rcases List.mem_iff_getElem.mp hmem with ⟨a, ha, hEq⟩
  exact ⟨a, ha, by rw [List.getD_eq_getElem _ _ ha]; exact hEq⟩

theorem subset_core (steps : List Step) (cands : List Bool) (required : List StepLink)
    (hlen : cands.length = steps.length)
    (hc : ∀ k, cands.getD k false = true → ∀ l ∈ (steps.getD k default).requires, l ∈ required)
    (hclosure : ∀ k < steps.length, cands.getD k false = false →
      HasAnyLinks required (steps.getD k default).creates = false) :
    ∀ i, InForest (BuildGraph (selSpec steps cands 0)) i →
      i < (selSpec steps cands 0).length ∧
      ∃ k, InForest (BuildGraph steps) k ∧ (selSpec steps cands 0).getD i default = steps.getD k default := by
  intro i hin
  have hroot : ∀ a, a < (selIdx cands 0).length →
      isRootStep (selSpec steps cands 0) ((selSpec steps cands 0).getD a default) = true →
      isRootStep steps (steps.getD ((selIdx cands 0).getD a 0) default) = true := by
    intro a ha hpa
    rw [isRootStep_iff] at hpa ⊢
    intro j hj
    by_cases hcj : cands.getD j false = true
    · rcases selIdx_surj cands j (by omega) hcj with ⟨b, hb, hjb⟩
      have := hpa b (by rw [selSpec_length]; exact hb)
      rw [selSpec_getD steps cands a ha, selSpec_getD steps cands b hb, hjb] at this
      exact this
    · have hfalse : cands.getD j false = false := by
        cases h : cands.getD j false
        · rfl
        · exact absurd h hcj
      by_contra hne
      have hm : stepMatches (steps.getD ((selIdx cands 0).getD a 0) default) (steps.getD j default) = true := by
        cases h : stepMatches (steps.getD ((selIdx cands 0).getD a 0) default) (steps.getD j default)
        · exact absurd h hne
        · rfl
      rcases (stepMatches_iff _ _).mp hm with ⟨r, hr, c, hcc, hsat⟩
      have hcf : cands.getD ((selIdx cands 0).getD a 0) false = true := (selIdx_getD_mem cands a ha).2
      have hrreq : r ∈ required := hc _ hcf r hr
      have hfa := (HasAnyLinks_false required (steps.getD j default).creates).mp
        (hclosure j hj hfalse) c hcc r hrreq
      rw [hsat] at hfa
      cases hfa
  have hchild : ∀ b c, c ∈ (BuildGraph (selSpec steps cands 0)).1.getD b [] →
      c < (selIdx cands 0).length ∧ b < (selIdx cands 0).length ∧
      (selIdx cands 0).getD c 0 ∈ (BuildGraph steps).1.getD ((selIdx cands 0).getD b 0) [] := by
    intro b c hmem
    rcases (mem_BuildGraph_children _ _ _).mp hmem with ⟨hcl, hbl, hm⟩
    rw [selSpec_length] at hcl hbl
    refine ⟨hcl, hbl, ?_⟩
    rw [mem_BuildGraph_children]
    refine ⟨by have := (selIdx_getD_mem cands c hcl).1; omega, by have := (selIdx_getD_mem cands b hbl).1; omega, ?_⟩
    rw [selSpec_getD steps cands c hcl, selSpec_getD steps cands b hbl] at hm
    exact hm
  have hreach : ∀ r x, Relation.ReflTransGen (GraphChild (BuildGraph (selSpec steps cands 0))) r x →
      r < (selIdx cands 0).length →
      x < (selIdx cands 0).length ∧
      Relation.ReflTransGen (GraphChild (BuildGraph steps)) ((selIdx cands 0).getD r 0) ((selIdx cands 0).getD x 0) := by
    intro r x h
    induction h with
    | refl => intro hr; exact ⟨hr, Relation.ReflTransGen.refl⟩
    | tail hbc hstep ih =>
      intro hr
      rcases ih hr with ⟨hblt, hchain⟩
      rcases hchild _ _ hstep with ⟨hclt, -, hedge⟩
      exact ⟨hclt, hchain.tail hedge⟩
  rcases hin with ⟨r, hrmem, hchain⟩
  have hrfacts := (mem_BuildGraph_roots _ _).mp hrmem
  rcases hrfacts with ⟨hrlt, hrroot⟩
  rw [selSpec_length] at hrlt
  rcases hreach r i hchain hrlt with ⟨hilt, hfullchain⟩
  have hfullroot : (selIdx cands 0).getD r 0 ∈ (BuildGraph steps).2 := by
    rw [mem_BuildGraph_roots]
    refine ⟨by have := (selIdx_getD_mem cands r hrlt).1; omega, ?_⟩
    have : (selSpec steps cands 0).getD r default = steps.getD ((selIdx cands 0).getD r 0) default :=
      selSpec_getD steps cands r hrlt
    rw [this] at hrroot
    exact hroot r hrlt (by rw [selSpec_getD steps cands r hrlt]; exact hrroot)
  refine ⟨by rw [selSpec_length]; exact hilt, (selIdx cands 0).getD i 0, ⟨_, hfullroot, hfullchain⟩, ?_⟩
  exact selSpec_getD steps cands i hilt

theorem seed_len (steps : List Step) (names : List GoString) :
    (seed steps names).1.length = steps.length := by
  have h := seedAux_len steps 0 (List.replicate steps.length false) [] names []
  rw [List.length_replicate] at h
  exact h

theorem seed_inv (steps : List Step) (names : List GoString) :
    ∀ k, (seed steps names).1.getD k false = true →
      ∀ l ∈ (steps.getD k default).requires, l ∈ (seed steps names).2.1 := by
  exact seedAux_inv steps steps 0 _ _ _ _ (fun m => by rw [Nat.zero_add])
    (fun k hk => by rw [getD_replicate] at hk; cases hk)

theorem seed_allNames (steps : List Step) (names : List GoString) :
    (seed steps names).2.2.2 = steps.map Step.name := by
  have h := seedAux_allNames steps 0 (List.replicate steps.length false) [] names []
  simpa using h

theorem seed_count (steps : List Step) (names : List GoString) (x : GoString) :
    (seed steps names).2.2.1.count x = names.count x - (steps.map Step.name).count x :=
  seedAux_count steps 0 (List.replicate steps.length false) [] names [] x

theorem buildPartialGraph_ok (steps : List Step) (names : List GoString) (h1 : names ≠ [])
    (g : List (List Nat) × List Nat) (h2 : BuildPartialGraph steps names = Except.ok g) :
    g = BuildGraph (partialTargeted steps names) ∧ (seed steps names).2.2.1 = [] := by
  unfold BuildPartialGraph at h2
  rw [if_neg h1] at h2
  by_cases hleft : (seed steps names).2.2.1 = []
  · rw [if_pos hleft] at h2
    refine ⟨?_, hleft⟩
    injection h2 with h3
    rw [← h3, partialTargeted]
  · rw [if_neg hleft] at h2
    cases h2

theorem buildPartialGraph_eq (steps : List Step) (names : List GoString) (h1 : names ≠ []) :
    BuildPartialGraph steps names
      = if (seed steps names).2.2.1 = []
        then Except.ok (BuildGraph (partialTargeted steps names))
        else Except.error ⟨(seed steps names).2.2.1, (seed steps names).2.2.2⟩ := by
  unfold BuildPartialGraph
  rw [if_neg h1]
  by_cases h : (seed steps names).2.2.1 = []
  · rw [if_pos h, if_pos h, partialTargeted]
  · rw [if_neg h, if_neg h]

theorem leftover_ne_iff (steps : List Step) (names : List GoString) :
    (seed steps names).2.2.1 ≠ [] ↔
      ∃ nm ∈ names, (steps.map Step.name).count nm < names.count nm := by
  constructor
  · intro h
    rcases List.exists_mem_of_ne_nil _ h with ⟨x, hx⟩
    have hc : 0 < (seed steps names).2.2.1.count x := List.count_pos_iff.mpr hx
    rw [seed_count] at hc
    refine ⟨x, ?_, by omega⟩
    have hpos : 0 < names.count x := by omega
    exact List.count_pos_iff.mp hpos
  · rintro ⟨nm, hmem, hlt⟩
    intro hnil
    have hz : (seed steps names).2.2.1.count nm = 0 := by rw [hnil]; rfl
    rw [seed_count] at hz
    omega

theorem isPrefixOf_append_self (l1 l2 : GoString) : l1.isPrefixOf (l1 ++ l2) = true := by
  induction l1 with
  | nil => simp
  | cons a as ih => simp [ih]

/-- C1 counterexample: a step whose requirement is satisfied only by its
own created link (it is the only step) is not returned as a forest root
and does appear among its own children, because BuildGraph also compares
the ordered pair of a node with itself. -/
theorem buildGraph_self_pair_cex :
    stepMatches c1SelfStep c1SelfStep = true
      ∧ (BuildGraph [c1SelfStep]).2 = []
      ∧ (BuildGraph [c1SelfStep]).1.getD 0 [] = [0] := by
  decide

/-- C1 amended: BuildGraph compares every ordered pair of nodes, the pair
of a node with itself included; a step whose requirements are satisfied
by its own created links is marked non-root and appears among its own
children. -/
theorem buildGraph_self_pair (steps : List Step) (i : Nat) (hi : i < steps.length)
    (hm : stepMatches (steps.getD i default) (steps.getD i default) = true) :
    i ∉ (BuildGraph steps).2 ∧ i ∈ (BuildGraph steps).1.getD i [] := by
  constructor
  · intro hmem
    rcases (mem_BuildGraph_roots steps i).mp hmem with ⟨-, hroot⟩
    have h2 := (isRootStep_iff steps _).mp hroot i hi
    rw [hm] at h2
    cases h2
  · exact (mem_BuildGraph_children steps i i).mpr ⟨hi, hi, hm⟩

/-- C1 witness: the amended statement applied to the concrete
self-satisfying step. -/
theorem buildGraph_self_pair_witness :
    (0 : Nat) ∉ (BuildGraph [c1SelfStep]).2 ∧ 0 ∈ (BuildGraph [c1SelfStep]).1.getD 0 [] :=
  buildGraph_self_pair [c1SelfStep] 0 (by decide) (by decide)

/-- C2 counterexample: a tag-level needle is satisfied by a stream-level
haystack member, yet HasAllLinks returns false, because the source tests
satisfiability in the opposite direction. -/
theorem hasAllLinks_direction_cex :
    SatisfiedBy (StepLink.internalImageStreamTag "s".toList "t".toList)
        (StepLink.internalImageStream "s".toList) = true
      ∧ HasAllLinks [StepLink.internalImageStreamTag "s".toList "t".toList]
          [StepLink.internalImageStream "s".toList] = false := by
  decide

/-- C2 amended: HasAllLinks is true iff every needle n has some haystack
member h such that h.SatisfiedBy(n) holds, the direction the source
actually tests. -/
theorem hasAllLinks_iff (needles haystack : List StepLink) :
    HasAllLinks needles haystack = true ↔
      ∀ n ∈ needles, ∃ h ∈ haystack, SatisfiedBy h n = true := by
  simp [HasAllLinks]

/-- C3: with non-empty names, BuildPartialGraph returns a NotFound error,
and no forest, exactly when some requested name occurs more often than
steps bear it; the error lists the names of all supplied steps and, for
each name, exactly the unmatched occurrences. -/
theorem buildPartialGraph_notFound (steps : List Step) (names : List GoString) (h : names ≠ []) :
    ((∃ e, BuildPartialGraph steps names = Except.error e)
        ↔ ∃ nm ∈ names, (steps.map Step.name).count nm < names.count nm)
    ∧ ∀ e, BuildPartialGraph steps names = Except.error e →
        e.known = steps.map Step.name
          ∧ ∀ nm, e.missing.count nm = names.count nm - (steps.map Step.name).count nm := by
  rw [buildPartialGraph_eq steps names h]
  by_cases hleft : (seed steps names).2.2.1 = []
  · rw [if_pos hleft]
    constructor
    · constructor
      · rintro ⟨e, he⟩
        cases he
      · intro hex
        exact absurd hleft ((leftover_ne_iff steps names).mpr hex)
    · intro e he
      cases he
  · rw [if_neg hleft]
    constructor
    · exact ⟨fun _ => (leftover_ne_iff steps names).mp hleft,
        fun _ => ⟨⟨(seed steps names).2.2.1, (seed steps names).2.2.2⟩, rfl⟩⟩
    · intro e he
      injection he with he2
      rw [← he2]
      exact ⟨seed_allNames steps names, fun nm => seed_count steps names nm⟩

/-- C3 witness: the characterization applied to two named steps and one
absent requested name. -/
theorem buildPartialGraph_notFound_witness :
    ((∃ e, BuildPartialGraph c3wSteps c3wNames = Except.error e)
        ↔ ∃ nm ∈ c3wNames, (c3wSteps.map Step.name).count nm < c3wNames.count nm)
    ∧ ∀ e, BuildPartialGraph c3wSteps c3wNames = Except.error e →
        e.known = c3wSteps.map Step.name
          ∧ ∀ nm, e.missing.count nm = c3wNames.count nm - (c3wSteps.map Step.name).count nm :=
  buildPartialGraph_notFound c3wSteps c3wNames (by decide)

/-- C4 counterexample: the consumer step named b is requested and matched,
the producer step is pulled in transitively, but the producer requires a
link it itself creates, so both nodes are marked non-root, the returned
forest has no roots, and the requested step is absent from the forest;
the step set of the forest is therefore not exactly the requested steps
plus the pulled steps. -/
theorem buildPartialGraph_exactness_cex :
    c4cNames ≠ []
      ∧ BuildPartialGraph c4cSteps c4cNames = Except.ok ([[0, 1], []], [])
      ∧ partialTargeted c4cSteps c4cNames = c4cSteps
      ∧ (c4cSteps.getD 1 default).name ∈ c4cNames
      ∧ ¬ InForest (([[0, 1], []], []) : List (List Nat) × List Nat) 1 := by
  refine ⟨by decide, rfl, by decide, by decide, ?_⟩
  rintro ⟨r, hr, -⟩
  cases hr

/-- C4 amended: for non-empty names that all match, each step in the
forest returned by BuildPartialGraph also appears, as a step, in the
forest of BuildGraph over all steps, and it is drawn from the targeted
list, the requested steps plus every step pulled in by the transitive
requires frontier; a targeted step that lies on a dependency cycle may
be missing from the returned forest. -/
theorem buildPartialGraph_subset (steps : List Step) (names : List GoString)
    (g : List (List Nat) × List Nat) (h1 : names ≠ [])
    (h2 : BuildPartialGraph steps names = Except.ok g) :
    ∀ i, InForest g i →
      i < (partialTargeted steps names).length ∧
      ∃ k, InForest (BuildGraph steps) k
        ∧ (partialTargeted steps names).getD i default = steps.getD k default := by
  intro i hi
  rcases buildPartialGraph_ok steps names h1 g h2 with ⟨hg, -⟩
  subst hg
  have hlenF : (expandLoop steps (steps.length + 1) ((seed steps names).1, (seed steps names).2.1)).1.length = steps.length := by
    rw [expandLoop_len]
    exact seed_len steps names
  have hcF := expandLoop_inv steps (steps.length + 1) (seed steps names).1 (seed steps names).2.1
    (seed_inv steps names)
  have hclosF := expandLoop_closure steps (steps.length + 1) (seed steps names).1 (seed steps names).2.1
    (seed_len steps names) (by omega)
  have hcore := subset_core steps _ _ hlenF hcF hclosF i
  unfold partialTargeted at hi ⊢
  rw [targetedOf_eq] at hi ⊢
  exact hcore hi

/-- C4 witness: the subset statement applied to a producer and a targeted
consumer; the consumer, node 1 of the partial forest, maps to a step of
the full forest. -/
theorem buildPartialGraph_subset_witness :
    1 < (partialTargeted c4Steps c4Names).length ∧
    ∃ k, InForest (BuildGraph c4Steps) k
      ∧ (partialTargeted c4Steps c4Names).getD 1 default = c4Steps.getD k default :=
  buildPartialGraph_subset c4Steps c4Names (BuildGraph (partialTargeted c4Steps c4Names))
    (by decide) rfl 1 ⟨0, by decide, Relation.ReflTransGen.single (by decide)⟩

/-- C5: a tag-level link is satisfied by the stream-level link of its
stream, but the stream-level link is never satisfied by a tag-level
link of that stream. -/
theorem streamTag_asymmetry (n t : GoString) :
    SatisfiedBy (StepLink.internalImageStreamTag n t) (StepLink.internalImageStream n) = true
      ∧ SatisfiedBy (StepLink.internalImageStream n) (StepLink.internalImageStreamTag n t) = false := by
  constructor
  · simp [SatisfiedBy]
  · simp [SatisfiedBy]

/-- C6: the wildcard link is satisfied by every link, and no other link
variant is satisfied by the wildcard link. -/
theorem allStepsLink_absorption (X L : StepLink) (hL : L ≠ StepLink.allSteps) :
    SatisfiedBy StepLink.allSteps X = true ∧ SatisfiedBy L StepLink.allSteps = false := by
  constructor
  · cases X <;> rfl
  · cases L
    · rfl
    · rfl
    · exact absurd rfl hL
    · rfl
    · rfl
    · rfl

/-- C6 witness: absorption applied to two concrete non-wildcard links. -/
theorem allStepsLink_absorption_witness :
    SatisfiedBy StepLink.allSteps StepLink.imagesReady = true
      ∧ SatisfiedBy StepLink.rpmRepo StepLink.allSteps = false :=
  allStepsLink_absorption StepLink.imagesReady StepLink.rpmRepo (by decide)

/-- C7: mapping a release name to its backing stream and back yields the
name again, both for the distinguished default name and for every other
name. -/
theorem releaseName_roundTrip (name : GoString) :
    ReleaseNameFrom (ReleaseStreamFor name) = name := by
  by_cases h : name = LatestReleaseName
  · rw [ReleaseStreamFor, if_pos h, ReleaseNameFrom, if_pos rfl, h]
  · rw [ReleaseStreamFor, if_neg h, ReleaseNameFrom]
    have hne : StableImageStream ++ "-".toList ++ name ≠ StableImageStream := by
      intro hEq
      have hlen := congrArg List.length hEq
      rw [List.length_append, List.length_append] at hlen
      have h6 : StableImageStream.length = 6 := rfl
      have hd : ("-".toList).length = 1 := rfl
      omega
    rw [if_neg hne, if_pos (isPrefixOf_append_self _ _), List.drop_left]

/-- C8: no children list of any node of the forest built by BuildGraph
contains the same child node twice, even when several link pairs connect
the same pair of steps. -/
theorem buildGraph_no_duplicate_children (steps : List Step) (p : Nat) :
    ((BuildGraph steps).1.getD p []).Nodup :=
  BuildGraph_children_nodup steps p

/-- C9: BuildPartialGraph with an empty name list returns exactly the
full BuildGraph forest and no error. -/
theorem buildPartialGraph_empty_names (steps : List Step) :
    BuildPartialGraph steps [] = Except.ok (BuildGraph steps) := by
  unfold BuildPartialGraph
  rw [if_pos rfl]

/-- C10: a non-empty step list on which BuildGraph returns an empty
forest: two steps each requiring what the other creates are both marked
non-root, so no roots are returned and neither step is in the forest. -/
theorem buildGraph_cycle_empty_forest :
    ∃ steps : List Step, steps ≠ []
      ∧ (∀ node ∈ steps, ∃ other ∈ steps, other ≠ node ∧ stepMatches node other = true)
      ∧ (BuildGraph steps).2 = []
      ∧ ∀ i, ¬ InForest (BuildGraph steps) i := by
  refine ⟨[c10StepA, c10StepB], by decide, by decide, by decide, ?_⟩
  intro i
  rintro ⟨r, hr, -⟩
  have h : (BuildGraph [c10StepA, c10StepB]).2 = [] := by decide
  rw [h] at hr
  cases hr
